import Mathlib

/-!
Verification development for the CryptoBot indicator library.

The source is a small pandas/numpy code base computing financial indicators
over daily OHLCV bars.  We embed the relevant functions shallowly:

* a bar's numeric columns are exact rationals (floating-point numbers are
  idealised as the rationals they denote; no claim below depends on rounding);
* the non-finite values that numpy/pandas arithmetic produces (`NaN`, `inf`,
  `-inf`) are made explicit by the type `PF` below, whose arithmetic follows
  IEEE-754 rules (`NaN` propagates, `x/0` is a signed infinity for `x ≠ 0` and
  `NaN` for `x = 0`, comparisons against `NaN` are `False`);
* a pandas `Series` is a `List`, `rolling(w).f()` is `rollingApply`,
  `.iloc[-1]` on a possibly-empty series is an `Option`-valued lookup
  (`none` models the raised `IndexError`).
-/

set_option maxRecDepth 40000

/-- Pandas float value: an exact rational, a signed infinity, or NaN.
The two IEEE zeros are conflated; none of the embedded code distinguishes
them. -/
inductive PF where
  | nan : PF
  | pinf : PF
  | ninf : PF
  | val : ℚ → PF
deriving DecidableEq

namespace PF

/-- NaN test, as `Series.isna` reports it. -/
def isNan : PF → Bool
  | nan => true
  | _ => false

/-- Finite-value test. -/
def isVal : PF → Bool
  | val _ => true
  | _ => false

/-- The rational magnitude of a finite value. -/
def toQ : PF → Option ℚ
  | val q => some q
  | _ => none

/-- IEEE negation. -/
def neg : PF → PF
  | nan => nan
  | pinf => ninf
  | ninf => pinf
  | val q => val (-q)

/-- IEEE addition: NaN propagates, opposite infinities give NaN. -/
def add : PF → PF → PF
  | nan, _ => nan
  | _, nan => nan
  | pinf, ninf => nan
  | ninf, pinf => nan
  | pinf, _ => pinf
  | _, pinf => pinf
  | ninf, _ => ninf
  | _, ninf => ninf
  | val a, val b => val (a + b)

/-- IEEE subtraction. -/
def sub (a b : PF) : PF := add a (neg b)

/-- IEEE multiplication: zero times infinity is NaN. -/
def mul : PF → PF → PF
  | nan, _ => nan
  | _, nan => nan
  | pinf, pinf => pinf
  | pinf, ninf => ninf
  | ninf, pinf => ninf
  | ninf, ninf => pinf
  | pinf, val b => if 0 < b then pinf else if b < 0 then ninf else nan
  | val a, pinf => if 0 < a then pinf else if a < 0 then ninf else nan
  | ninf, val b => if 0 < b then ninf else if b < 0 then pinf else nan
  | val a, ninf => if 0 < a then ninf else if a < 0 then pinf else nan
  | val a, val b => val (a * b)

/-- IEEE division: finite over zero is a signed infinity (NaN for 0/0),
finite over infinity is zero, infinity over infinity is NaN. -/
def div : PF → PF → PF
  | nan, _ => nan
  | _, nan => nan
  | pinf, pinf => nan
  | pinf, ninf => nan
  | ninf, pinf => nan
  | ninf, ninf => nan
  | pinf, val b => if b < 0 then ninf else pinf
  | ninf, val b => if b < 0 then pinf else ninf
  | val _, pinf => val 0
  | val _, ninf => val 0
  | val a, val b =>
      if b = 0 then (if 0 < a then pinf else if a < 0 then ninf else nan)
      else val (a / b)

/-- IEEE strict less-than: any comparison with NaN is `false`. -/
def blt : PF → PF → Bool
  | nan, _ => false
  | _, nan => false
  | pinf, _ => false
  | ninf, ninf => false
  | ninf, _ => true
  | val _, pinf => true
  | val _, ninf => false
  | val a, val b => decide (a < b)

/-- The numpy truth value of `x != 0` (true for NaN and the infinities). -/
def ne0 : PF → Bool
  | nan => true
  | pinf => true
  | ninf => true
  | val q => decide (q ≠ 0)

/-- Membership of a pandas float in a closed rational interval, used to state
range properties: the value is finite and lies between the bounds. -/
def inRange (lo hi : ℚ) (x : PF) : Prop :=
  ∃ q, x = val q ∧ lo ≤ q ∧ q ≤ hi

end PF

/-- Mean of a rational window, as `rolling(w).mean()` computes it on the
window it aggregates. -/
def qMean (l : List ℚ) : ℚ := l.sum / l.length

/-- Maximum of a rational window (`rolling(w).max()` on a window; the default
for the empty list is never used because rolling windows are nonempty). -/
def listMax : List ℚ → ℚ
  | [] => 0
  | h :: t => t.foldl max h

/-- Minimum of a rational window. -/
def listMin : List ℚ → ℚ
  | [] => 0
  | h :: t => t.foldl min h

/-- The trailing window of width `w` ending at index `i` (inclusive). -/
def windowEnd (w : ℕ) (xs : List ℚ) (i : ℕ) : List ℚ :=
  (xs.take (i + 1)).drop (i + 1 - w)

/-- Pandas rolling-window aggregate of width `w` on a column of finite floats:
entry `i` is NaN while fewer than `w` observations are available and the
aggregate `f` of the trailing `w`-window afterwards. -/
def rollingApply (w : ℕ) (f : List ℚ → ℚ) (xs : List ℚ) : List PF :=
  (List.range xs.length).map (fun i =>
    if i + 1 < w then PF.nan else PF.val (f (windowEnd w xs i)))

/-- Rolling aggregate over a float series.  Pandas propagates non-finite
window entries; every series this code base rolls over is finite (raw columns
and the clamped gain/loss series), so only the all-finite branch is ever
exercised, and a window containing a non-finite entry is conservatively NaN. -/
def rollingApplyPF (w : ℕ) (f : List ℚ → ℚ) (xs : List PF) : List PF :=
  (List.range xs.length).map (fun i =>
    if i + 1 < w then PF.nan
    else
      let ws := (xs.take (i + 1)).drop (i + 1 - w)
      if ws.all PF.isVal then PF.val (f (ws.filterMap PF.toQ)) else PF.nan)

/-- Pandas `Series.cumsum()` over finite floats. -/
def cumsum (xs : List ℚ) : List ℚ :=
  (List.range xs.length).map (fun i => (xs.take (i + 1)).sum)

/-- Pandas `Series.diff()`: NaN at index 0, consecutive differences after. -/
def pfDiff (xs : List ℚ) : List PF :=
  match xs with
  | [] => []
  | _ :: _ =>
      PF.nan :: List.zipWith (fun prev cur => PF.val (cur - prev)) xs xs.tail

/-- Pandas `Series.pct_change()`: NaN at index 0, then
`close_t / close_(t-1) - 1`, with the IEEE blow-up on a zero denominator. -/
def pctChange (xs : List ℚ) : List PF :=
  match xs with
  | [] => []
  | _ :: _ =>
      PF.nan :: List.zipWith
        (fun prev cur => PF.sub (PF.div (PF.val cur) (PF.val prev)) (PF.val 1))
        xs xs.tail

/-- Pandas `Series.iloc[i]` with Python index semantics: a negative index
counts from the end, and an out-of-range index raises (here: `none`). -/
def ilocIdx (xs : List ℚ) (i : Int) : Option ℚ :=
  let j : Int := if i < 0 then (xs.length : Int) + i else i
  if h : 0 ≤ j ∧ j < (xs.length : Int) then
    some (xs.get ⟨j.toNat, by omega⟩)
  else none

/-- Pandas `Series.mean()` with the default `skipna`: NaN entries are dropped,
an empty remainder gives NaN, and infinities propagate through the sum. -/
def pfMean (xs : List PF) : PF :=
  let vs := xs.filter (fun x => !x.isNan)
  if vs.length = 0 then PF.nan
  else PF.div (vs.foldl PF.add (PF.val 0)) (PF.val vs.length)

/-- Sample variance (`ddof = 1`, `skipna`) of a float series; NaN when fewer
than two observations remain or when a non-finite observation is present,
matching `Series.std()` squared.  `Series.std()` itself is the square root of
this quantity: it is zero, positive, or NaN exactly when the variance is. -/
def sampleVar (xs : List PF) : PF :=
  let vs := xs.filter (fun x => !x.isNan)
  if vs.length < 2 then PF.nan
  else if vs.any (fun x => !x.isVal) then PF.nan
  else
    let qs := vs.filterMap PF.toQ
    let m := qs.sum / qs.length
    PF.val (((qs.map (fun x => (x - m) ^ 2)).sum) / (qs.length - 1))

/-- One daily OHLCV bar, with the columns the embedded functions read.
The unused `open` column is omitted. -/
structure Bar where
  high : ℚ
  low : ℚ
  close : ℚ
  volume : ℚ
  takerBuyQuote : ℚ
deriving DecidableEq

namespace Technical

/-!
Functions from `analysis/technical.py`.  Functions that read only the
`close` column take that column (`closes : List ℚ`) directly; functions
reading several columns take the whole bar list.
-/

/-- Source: `df["close"].rolling(window=50).mean().iloc[-1]` (NaN while fewer
than 50 bars exist; `none` models the `IndexError` on an empty series). -/
def calculate_sma_50 (closes : List ℚ) : Option PF :=
  (rollingApply 50 qMean closes).getLast?

/-- Recurrence of `ewm(span, adjust=False).mean()`: given the smoothing
factor and the previous smoothed value, folds over the remaining column. -/
def ewmFrom (a : ℚ) (prev : ℚ) : List ℚ → List ℚ
  | [] => []
  | x :: rest =>
      let e := a * x + (1 - a) * prev
      e :: ewmFrom a e rest

/-- Source recurrence of `ewm(span=s, adjust=False).mean()`:
`ema_0 = x_0`, `ema_t = α x_t + (1-α) ema_(t-1)`, `α = 2/(span+1)`. -/
def ewmMean (span : ℕ) (xs : List ℚ) : List ℚ :=
  match xs with
  | [] => []
  | x :: rest => x :: ewmFrom (2 / (span + 1)) x rest

/-- Source: `df["close"].ewm(span=20, adjust=False).mean().iloc[-1]`. -/
def calculate_ema_20 (closes : List ℚ) : Option ℚ :=
  (ewmMean 20 closes).getLast?

/-- Source: `delta.where(delta > 0, 0)` on `delta = close.diff()`; the NaN
first difference compares false and becomes 0. -/
def gainSeries (closes : List ℚ) : List PF :=
  (pfDiff closes).map (fun d => if (PF.val 0).blt d then d else PF.val 0)

/-- Source: `-delta.where(delta < 0, 0)` (negated down-moves, 0 elsewhere). -/
def lossSeries (closes : List ℚ) : List PF :=
  (pfDiff closes).map (fun d => PF.neg (if d.blt (PF.val 0) then d else PF.val 0))

/-- Source `calculate_rsi`: rolling means of gains and losses over `period`
bars, `rs = gain/loss`, `rsi = 100 - 100/(1+rs)`, returning the last entry
unless the whole series is NaN. -/
def calculate_rsi (closes : List ℚ) (period : ℕ) : PF :=
  let gain := rollingApplyPF period qMean (gainSeries closes)
  let loss := rollingApplyPF period qMean (lossSeries closes)
  let rs := List.zipWith PF.div gain loss
  let rsi := rs.map (fun r =>
    PF.sub (PF.val 100) (PF.div (PF.val 100) (PF.add (PF.val 1) r)))
  if rsi.all PF.isNan then PF.nan else rsi.getLastD PF.nan

/-- Source `calculate_obv`: `direction = np.where(close.diff() > 0, 1, -1)`
(the index-0 NaN difference compares false, so bar 0 gets direction -1),
then `(direction * volume).cumsum().iloc[-1]`. -/
def calculate_obv (bars : List Bar) : Option ℚ :=
  let direction := (pfDiff (bars.map Bar.close)).map
    (fun d => if (PF.val 0).blt d then (1 : ℚ) else -1)
  let obv := cumsum (List.zipWith (fun s b => s * b.volume) direction bars)
  obv.getLast?

/-- Source `calculate_vwap`: typical price `(high+low+close)/3`, then
`(tp*volume).cumsum() / volume.cumsum()`, last entry; a zero cumulative
volume blows up in IEEE fashion. -/
def calculate_vwap (bars : List Bar) : Option PF :=
  let tp := bars.map (fun b => (b.high + b.low + b.close) / 3)
  let num := cumsum (List.zipWith (fun t b => t * b.volume) tp bars)
  let den := cumsum (bars.map Bar.volume)
  (List.zipWith (fun a b => PF.div (PF.val a) (PF.val b)) num den).getLast?

/-- Source `calculate_roc`:
`(close.iloc[-1] - close.iloc[-period]) / close.iloc[-period] * 100`;
`none` models the `IndexError` raised when an `iloc` index is out of range. -/
def calculate_roc (closes : List ℚ) (period : ℕ) : Option PF :=
  match ilocIdx closes (-1), ilocIdx closes (-(period : Int)) with
  | some last, some base =>
      some (PF.mul (PF.div (PF.val (last - base)) (PF.val base)) (PF.val 100))
  | _, _ => none

/-- Source `calculate_stochastic_k`: rolling extremes of low/high over
`period` bars, `k = 100 * (close - lowest_low) / (highest_high - lowest_low)`,
last entry. -/
def calculate_stochastic_k (bars : List Bar) (period : ℕ) : Option PF :=
  let ll := rollingApply period listMin (bars.map Bar.low)
  let hh := rollingApply period listMax (bars.map Bar.high)
  let k := List.zipWith
    (fun c lh => PF.div (PF.mul (PF.val 100) (PF.sub (PF.val c) lh.1))
      (PF.sub lh.2 lh.1))
    (bars.map Bar.close) (ll.zip hh)
  k.getLast?

/-- Source `calculate_williams_r`:
`r = -100 * (highest_high - close) / (highest_high - lowest_low)`, last entry. -/
def calculate_williams_r (bars : List Bar) (period : ℕ) : Option PF :=
  let hh := rollingApply period listMax (bars.map Bar.high)
  let ll := rollingApply period listMin (bars.map Bar.low)
  let r := List.zipWith
    (fun c lh => PF.div (PF.mul (PF.val (-100)) (PF.sub lh.2 (PF.val c)))
      (PF.sub lh.2 lh.1))
    (bars.map Bar.close) (ll.zip hh)
  r.getLast?

/-- Source `calculate_channel_breakout`: 20-bar rolling high of highs and low
of lows (both NaN while fewer than 20 bars exist, and a comparison against
NaN is false), then `1 if close > high_20 else -1 if close < low_20 else 0`. -/
def calculate_channel_breakout (bars : List Bar) : Option Int :=
  match (rollingApply 20 listMax (bars.map Bar.high)).getLast?,
        (rollingApply 20 listMin (bars.map Bar.low)).getLast?,
        (bars.map Bar.close).getLast? with
  | some h20, some l20, some cp =>
      some (if h20.blt (PF.val cp) then 1
            else if (PF.val cp).blt l20 then -1 else 0)
  | _, _, _ => none

end Technical

namespace Peer

/-!
Functions from `src/peer.py` (the peer-comparison script); its dataframe
carries only `close` and `volume` as floats, so `Bar.high`, `Bar.low` and
`Bar.takerBuyQuote` are simply unread here.
-/

/-- Source `calculate_nvt_ratio(df, supply)`:
`((close * supply) / (volume * close)).mean()` — the elementwise quotient of
the market-cap series by the quote-volume series, then the skipna mean. -/
def calculate_nvt_ratio (bars : List Bar) (supply : ℚ) : PF :=
  pfMean (bars.map (fun b =>
    PF.div (PF.val (b.close * supply)) (PF.val (b.volume * b.close))))

/-- Model of `np.sqrt` on the sample variance, used only through the guard
`std != 0` and as a positive finite factor: it sends NaN to NaN, zero to
zero and a positive finite variance to a positive finite float.  The exact
magnitude of that float (the true square root, irrational in general) is
never used by any property in this file, so it is modelled by the rational
magnitude itself. -/
def pfSqrtShape : PF → PF
  | PF.val q => PF.val q
  | x => x

/-- Model of the annualisation constant `np.sqrt(365)`: a positive finite
float whose exact magnitude no property in this file depends on. -/
def sqrt365 : PF := PF.val 365

/-- Source `calculate_sharpe_ratio(df)`: daily returns via
`pct_change().dropna()`, shifted by the staking yield `0.05/365` minus the
risk-free rate `0.025/365`; if their standard deviation is nonzero (numpy
truth, so also when it is NaN) the mean over the standard deviation times
`sqrt(365)`, else `np.inf`.  The standard deviation is the square root of
`sampleVar`, which is zero / positive / NaN exactly together with it. -/
def calculate_sharpe_ratio (closes : List ℚ) : PF :=
  let returns := (pctChange closes).filter (fun x => !x.isNan)
  let excess := returns.map (fun r =>
    PF.sub (PF.add r (PF.val (5 / 100 / 365))) (PF.val (25 / 1000 / 365)))
  if PF.ne0 (sampleVar excess) then
    PF.mul (PF.div (pfMean excess) (pfSqrtShape (sampleVar excess))) sqrt365
  else PF.pinf

/-- Source `calculate_mayer_multiple(df)`:
`close.rolling(200).mean().iloc[-1]`, then `close.iloc[-1] / ma_200` when
`ma_200 != 0` (numpy truth: NaN also passes the guard) and `np.inf`
otherwise; `none` models the `IndexError` on an empty series. -/
def calculate_mayer_multiple (closes : List ℚ) : Option PF :=
  match (rollingApply 200 qMean closes).getLast?, closes.getLast? with
  | some ma, some cp =>
      some (if PF.ne0 ma then PF.div (PF.val cp) ma else PF.pinf)
  | _, _ => none

end Peer

namespace Quant

/-!
Functions from `src/quantitative.py`.
-/

/-- Result record of `calculate_volume_composition` (the returned dict). -/
structure VolComp where
  buy_volume : PF
  sell_volume : PF
deriving DecidableEq

/-- Source `calculate_volume_composition(df)`: `buy = taker_buy_quote.sum()`,
`total = (volume * close).sum()`, `sell = total - buy`, returning the two
fractions when `total != 0` and the pair of ordinary zeros otherwise. -/
def calculate_volume_composition (bars : List Bar) : VolComp :=
  let buy := (bars.map Bar.takerBuyQuote).sum
  let total := (bars.map (fun b => b.volume * b.close)).sum
  let sell := total - buy
  if total ≠ 0 then { buy_volume := PF.val (buy / total), sell_volume := PF.val (sell / total) }
  else { buy_volume := PF.val 0, sell_volume := PF.val 0 }

/-- Result record of `calculate_price_dcf` (the returned dict). -/
structure PriceDcf where
  intrinsic_value : PF
  valuation_ratio : PF
deriving DecidableEq

/-- Source `calculate_price_dcf(df, discount_rate, growth_rate, years)`:
`future_prices[t] = p * (1+g)^t` for `t = 1..years` with `p` the last close,
`discounted_price = sum(future_prices[t] / (1+d)^t)`, and
`valuation_ratio = discounted_price / p` when `p != 0`, else `np.inf`;
`none` models the `IndexError` of `iloc[-1]` on an empty series. -/
def calculate_price_dcf (closes : List ℚ) (discount_rate growth_rate : ℚ)
    (years : ℕ) : Option PriceDcf :=
  match ilocIdx closes (-1) with
  | none => none
  | some p =>
      let discounted := ((List.range years).map (fun t =>
        PF.div (PF.val (p * (1 + growth_rate) ^ (t + 1)))
          (PF.val ((1 + discount_rate) ^ (t + 1))))).foldl PF.add (PF.val 0)
      some { intrinsic_value := discounted,
             valuation_ratio :=
               if p ≠ 0 then PF.div discounted (PF.val p) else PF.pinf }

end Quant


/-! Specification-side definitions and concrete input series used by the
claims below. -/

/-- Rational magnitudes of `Technical.gainSeries`: the NaN first difference
compares false under `where` and becomes 0, up-moves stay, the rest is 0. -/
def gainQ (closes : List ℚ) : List ℚ :=
  match closes with
  | [] => []
  | _ :: _ =>
      0 :: List.zipWith (fun p c => if p < c then c - p else 0) closes closes.tail

/-- Rational magnitudes of `Technical.lossSeries` (negated down-moves). -/
def lossQ (closes : List ℚ) : List ℚ :=
  match closes with
  | [] => []
  | _ :: _ =>
      0 :: List.zipWith (fun p c => if c < p then p - c else 0) closes closes.tail

/-- OBV as the specification words state it, helper: signed volume terms from
the second bar on, carrying the previous close. -/
def obvSpecGo (prev : Bar) : List Bar → ℚ
  | [] => 0
  | b :: rest =>
      (if prev.close < b.close then b.volume else -b.volume) + obvSpecGo b rest

/-- OBV as the specification words state it: the cumulative sum, starting at
index 1, of `volume_t * sign(dclose_t)`, sign +1 on a strict up-move and -1
otherwise, with bar 0 contributing no signed term. -/
def obv_spec : List Bar → ℚ
  | [] => 0
  | b0 :: rest => obvSpecGo b0 rest

/-- A flat series: `n` bars with all prices `c` and volume `v` (taker-buy
quote volume 0; it is unread by the functions applied to flat series). -/
def flatBars (c v : ℚ) (n : ℕ) : List Bar :=
  List.replicate n { high := c, low := c, close := c, volume := v, takerBuyQuote := 0 }

/-- The 14-bar strictly increasing close column `[10, 11, ..., 23]`. -/
def closes14 : List ℚ := [10, 11, 12, 13, 14, 15, 16, 17, 18, 19, 20, 21, 22, 23]

/-- A 16-bar close column that moves once and is then flat for the final 14
differences: `[1, 2, 2, ..., 2]`. -/
def closes16 : List ℚ := [1, 2, 2, 2, 2, 2, 2, 2, 2, 2, 2, 2, 2, 2, 2, 2]

/-- The 16 flat bars (volume 1) whose closes are `closes16`: the closes are
not all equal, but the last 14 price changes are all zero. -/
def bars16 : List Bar := closes16.map (fun c => { high := c, low := c, close := c, volume := 1, takerBuyQuote := 0 })

/-- Fifteen bars with strictly increasing flat prices `1, 2, ..., 15` and
volume 1. -/
def bars15 : List Bar := (List.range 15).map (fun i => ⟨i + 1, i + 1, i + 1, 1, 0⟩)

/-- Twenty bars with strictly increasing flat prices and volume 1. -/
def bars20 : List Bar := (List.range 20).map (fun i => ⟨i + 1, i + 1, i + 1, 1, 0⟩)

/-- Two bars, closes 1 then 2 with volumes 5 and 7. -/
def barsObv : List Bar := [⟨1, 1, 1, 5, 0⟩, ⟨2, 2, 2, 7, 0⟩]

/-- A single bar with zero volume (zero total quote volume). -/
def barsZeroVol : List Bar := [⟨1, 1, 1, 0, 0⟩]

/-! Arithmetic facts about `PF` used throughout. -/

@[simp] theorem PF.add_val_val (a b : ℚ) :
    PF.add (PF.val a) (PF.val b) = PF.val (a + b) := rfl

@[simp] theorem PF.sub_val_val (a b : ℚ) :
    PF.sub (PF.val a) (PF.val b) = PF.val (a - b) := by
  simp [PF.sub, PF.neg, PF.add, sub_eq_add_neg]

theorem PF.div_val_val_of_ne (a : ℚ) {b : ℚ} (hb : b ≠ 0) :
    PF.div (PF.val a) (PF.val b) = PF.val (a / b) := by
  simp [PF.div, hb]

theorem PF.div_val_zero_of_pos {a : ℚ} (ha : 0 < a) :
    PF.div (PF.val a) (PF.val 0) = PF.pinf := by
  simp [PF.div, ha]

@[simp] theorem PF.add_val_pinf (a : ℚ) :
    PF.add (PF.val a) PF.pinf = PF.pinf := rfl

@[simp] theorem PF.div_val_pinf (a : ℚ) :
    PF.div (PF.val a) PF.pinf = PF.val 0 := rfl

@[simp] theorem PF.mul_val_val (a b : ℚ) :
    PF.mul (PF.val a) (PF.val b) = PF.val (a * b) := rfl

@[simp] theorem PF.blt_val_val (a b : ℚ) :
    PF.blt (PF.val a) (PF.val b) = decide (a < b) := rfl

@[simp] theorem PF.isNan_val (q : ℚ) : PF.isNan (PF.val q) = false := rfl

@[simp] theorem PF.isVal_val (q : ℚ) : PF.isVal (PF.val q) = true := rfl

@[simp] theorem PF.toQ_val (q : ℚ) : PF.toQ (PF.val q) = some q := rfl

@[simp] theorem PF.ne0_val (q : ℚ) : PF.ne0 (PF.val q) = decide (q ≠ 0) := rfl

theorem PF.val_ne_pinf (q : ℚ) : PF.val q ≠ PF.pinf := by
  intro h; cases h

/-! Facts about list sums, means, maxima and minima of rational windows. -/

theorem sum_of_all_eq {l : List ℚ} {c : ℚ} (h : ∀ x ∈ l, x = c) :
    l.sum = l.length * c := by
  induction l with
  | nil => simp
  | cons a t ih =>
      have ha : a = c := h a (by simp)
      have ht : ∀ x ∈ t, x = c := fun x hx => h x (by simp [hx])
      simp [ha, ih ht, add_mul]; ring

theorem qMean_of_all_eq {l : List ℚ} {c : ℚ} (h0 : l ≠ [])
    (h : ∀ x ∈ l, x = c) : qMean l = c := by
  have h1 : l.length ≠ 0 := fun h => h0 (List.length_eq_zero.mp h)
  have hlen : (l.length : ℚ) ≠ 0 := by exact_mod_cast h1
  rw [qMean, sum_of_all_eq h, mul_comm, mul_div_assoc, div_self hlen, mul_one]

theorem qMean_nonneg {l : List ℚ} (h : ∀ x ∈ l, 0 ≤ x) : 0 ≤ qMean l := by
  have := List.sum_nonneg h
  have : (0 : ℚ) ≤ l.sum / l.length := by positivity
  simpa [qMean]

theorem sum_pos_of_mem {l : List ℚ} (hnn : ∀ x ∈ l, 0 ≤ x)
    {y : ℚ} (hy : y ∈ l) (hpos : 0 < y) : 0 < l.sum := by
  induction l with
  | nil => cases hy
  | cons a t ih =>
      rcases List.mem_cons.mp hy with rfl | hyt
      · have : 0 ≤ t.sum := List.sum_nonneg (fun x hx => hnn x (by simp [hx]))
        simp only [List.sum_cons]; linarith
      · have ha : 0 ≤ a := hnn a (by simp)
        have : 0 < t.sum := ih (fun x hx => hnn x (by simp [hx])) hyt
        simp only [List.sum_cons]; linarith

theorem qMean_pos {l : List ℚ} (hnn : ∀ x ∈ l, 0 ≤ x)
    {y : ℚ} (hy : y ∈ l) (hpos : 0 < y) : 0 < qMean l := by
  have hs : 0 < l.sum := sum_pos_of_mem hnn hy hpos
  have hl : 0 < (l.length : ℚ) := by
    have h0 : l ≠ [] := by rintro rfl; cases hy
    have := List.length_pos.mpr h0
    exact_mod_cast this
  exact div_pos hs hl

theorem foldl_max_le_self (t : List ℚ) (a : ℚ) : a ≤ t.foldl max a := by
  induction t generalizing a with
  | nil => simp
  | cons b s ih => exact le_trans (le_max_left a b) (ih (max a b))

theorem le_foldl_max {t : List ℚ} {x : ℚ} (hx : x ∈ t) (a : ℚ) :
    x ≤ t.foldl max a := by
  induction t generalizing a with
  | nil => cases hx
  | cons b s ih =>
      rcases List.mem_cons.mp hx with rfl | hxs
      · exact le_trans (le_max_right a x) (foldl_max_le_self s _)
      · exact ih hxs _

theorem foldl_max_mem (t : List ℚ) (a : ℚ) : t.foldl max a ∈ a :: t := by
  induction t generalizing a with
  | nil => simp
  | cons b s ih =>
      have := ih (max a b)
      rcases List.mem_cons.mp this with h | h
      · rcases max_choice a b with hm | hm <;> rw [List.foldl_cons, h, hm] <;> simp
      · simp only [List.foldl_cons]
        exact List.mem_cons_of_mem _ (List.mem_cons_of_mem _ h)

theorem le_listMax {l : List ℚ} {x : ℚ} (hx : x ∈ l) : x ≤ listMax l := by
  cases l with
  | nil => cases hx
  | cons a t =>
      rcases List.mem_cons.mp hx with rfl | hxt
      · exact foldl_max_le_self t x
      · exact le_foldl_max hxt a

theorem listMax_mem {l : List ℚ} (h : l ≠ []) : listMax l ∈ l := by
  cases l with
  | nil => exact absurd rfl h
  | cons a t => exact foldl_max_mem t a

theorem foldl_min_le_self (t : List ℚ) (a : ℚ) : t.foldl min a ≤ a := by
  induction t generalizing a with
  | nil => simp
  | cons b s ih => exact le_trans (ih (min a b)) (min_le_left a b)

theorem foldl_min_le {t : List ℚ} {x : ℚ} (hx : x ∈ t) (a : ℚ) :
    t.foldl min a ≤ x := by
  induction t generalizing a with
  | nil => cases hx
  | cons b s ih =>
      rcases List.mem_cons.mp hx with rfl | hxs
      · exact le_trans (foldl_min_le_self s _) (min_le_right a x)
      · exact ih hxs _

theorem foldl_min_mem (t : List ℚ) (a : ℚ) : t.foldl min a ∈ a :: t := by
  induction t generalizing a with
  | nil => simp
  | cons b s ih =>
      have := ih (min a b)
      rcases List.mem_cons.mp this with h | h
      · rcases min_choice a b with hm | hm <;> rw [List.foldl_cons, h, hm] <;> simp
      · simp only [List.foldl_cons]
        exact List.mem_cons_of_mem _ (List.mem_cons_of_mem _ h)

theorem listMin_le {l : List ℚ} {x : ℚ} (hx : x ∈ l) : listMin l ≤ x := by
  cases l with
  | nil => cases hx
  | cons a t =>
      rcases List.mem_cons.mp hx with rfl | hxt
      · exact foldl_min_le_self t x
      · exact foldl_min_le hxt a

theorem listMin_mem {l : List ℚ} (h : l ≠ []) : listMin l ∈ l := by
  cases l with
  | nil => exact absurd rfl h
  | cons a t => exact foldl_min_mem t a

/-! Plumbing lemmas: last elements of the series combinators. -/

theorem zipWith_drop_comm {α β γ : Type} (f : α → β → γ) :
    ∀ (as : List α) (bs : List β) (n : ℕ),
      (List.zipWith f as bs).drop n = List.zipWith f (as.drop n) (bs.drop n)
  | [], bs, n => by simp
  | _ :: _, [], n => by simp
  | a :: as, b :: bs, 0 => by simp
  | a :: as, b :: bs, n + 1 => by
      simpa using zipWith_drop_comm f as bs n

theorem forall_mem_zipWith {α β γ : Type} {f : α → β → γ} {P : γ → Prop}
    (h : ∀ a b, P (f a b)) :
    ∀ (as : List α) (bs : List β), ∀ x ∈ List.zipWith f as bs, P x
  | [], _, x, hx => by cases hx
  | _ :: _, [], x, hx => by cases hx
  | a :: as, b :: bs, x, hx => by
      rcases List.mem_cons.mp hx with rfl | hx2
      · exact h a b
      · exact forall_mem_zipWith h as bs x hx2

theorem getLast?_zipWith_eq {α β γ : Type} {f : α → β → γ} {as : List α}
    {bs : List β} {a : α} {b : β} (hlen : as.length = bs.length)
    (ha : as.getLast? = some a) (hb : bs.getLast? = some b) :
    (List.zipWith f as bs).getLast? = some (f a b) := by
  rw [List.getLast?_eq_getElem?] at ha hb ⊢
  rw [List.length_zipWith, ← hlen, Nat.min_self, List.getElem?_zipWith, ha]
  rw [← hlen] at hb
  rw [hb]

theorem getLast?_zip_eq {α β : Type} {as : List α} {bs : List β} {a : α}
    {b : β} (hlen : as.length = bs.length) (ha : as.getLast? = some a)
    (hb : bs.getLast? = some b) : (as.zip bs).getLast? = some (a, b) := by
  rw [List.zip]
  exact getLast?_zipWith_eq hlen ha hb

theorem cumsum_getLast {xs : List ℚ} (h : xs ≠ []) :
    (cumsum xs).getLast? = some xs.sum := by
  have hpos : 0 < xs.length := List.length_pos.mpr h
  rw [List.getLast?_eq_getElem?, cumsum]
  have hl : ((List.range xs.length).map
      (fun i => (xs.take (i + 1)).sum)).length = xs.length := by simp
  rw [hl]
  have hb : xs.length - 1 < ((List.range xs.length).map
      (fun i => (xs.take (i + 1)).sum)).length := by rw [hl]; omega
  rw [List.getElem?_eq_getElem hb, List.getElem_map, List.getElem_range]
  have : xs.length - 1 + 1 = xs.length := by omega
  rw [this, List.take_length]

theorem cumsum_length (xs : List ℚ) : (cumsum xs).length = xs.length := by
  simp [cumsum]

theorem rollingApply_length (w : ℕ) (f : List ℚ → ℚ) (xs : List ℚ) :
    (rollingApply w f xs).length = xs.length := by
  simp [rollingApply]

theorem rollingApply_getLast (w : ℕ) (f : List ℚ → ℚ) (xs : List ℚ)
    (hw : w ≤ xs.length) (h0 : 0 < w) :
    (rollingApply w f xs).getLast? =
      some (PF.val (f (xs.drop (xs.length - w)))) := by
  have hpos : 0 < xs.length := lt_of_lt_of_le h0 hw
  rw [List.getLast?_eq_getElem?, rollingApply_length]
  have hb : xs.length - 1 < (rollingApply w f xs).length := by
    rw [rollingApply_length]; omega
  rw [List.getElem?_eq_getElem hb]
  simp only [rollingApply, List.getElem_map, List.getElem_range]
  have hcond : ¬ (xs.length - 1 + 1 < w) := by omega
  rw [if_neg hcond]
  have h1 : xs.length - 1 + 1 = xs.length := by omega
  rw [windowEnd, h1, List.take_length]

theorem rollingApply_getLast_nan (w : ℕ) (f : List ℚ → ℚ) (xs : List ℚ)
    (h0 : xs ≠ []) (hlen : xs.length < w) :
    (rollingApply w f xs).getLast? = some PF.nan := by
  have hpos : 0 < xs.length := List.length_pos.mpr h0
  rw [List.getLast?_eq_getElem?, rollingApply_length]
  have hb : xs.length - 1 < (rollingApply w f xs).length := by
    rw [rollingApply_length]; omega
  rw [List.getElem?_eq_getElem hb]
  simp only [rollingApply, List.getElem_map, List.getElem_range]
  have hcond : xs.length - 1 + 1 < w := by omega
  rw [if_pos hcond]

theorem filterMap_toQ_map_val (l : List ℚ) :
    (l.map PF.val).filterMap PF.toQ = l := by
  induction l with
  | nil => rfl
  | cons a t ih => simp [List.filterMap_cons, ih]

theorem all_isVal_map_val (l : List ℚ) :
    (l.map PF.val).all PF.isVal = true := by
  simp

theorem rollingApplyPF_map_val (w : ℕ) (f : List ℚ → ℚ) (rs : List ℚ) :
    rollingApplyPF w f (rs.map PF.val) = rollingApply w f rs := by
  simp only [rollingApplyPF, rollingApply, List.length_map]
  apply List.map_congr_left
  intro i _
  by_cases hc : i + 1 < w
  · simp [hc]
  · have htd : ((rs.map PF.val).take (i + 1)).drop (i + 1 - w) =
        ((rs.take (i + 1)).drop (i + 1 - w)).map PF.val := by
      rw [← List.map_take, ← List.map_drop]
    simp only [if_neg hc, htd, all_isVal_map_val]
    rw [if_pos trivial, filterMap_toQ_map_val]
    rfl

theorem foldl_add_map_val (l : List ℚ) (a : ℚ) :
    (l.map PF.val).foldl PF.add (PF.val a) = PF.val (a + l.sum) := by
  induction l generalizing a with
  | nil => simp
  | cons x t ih => simp [ih, add_assoc]

theorem pfMean_map_val {l : List ℚ} (h : l ≠ []) :
    pfMean (l.map PF.val) = PF.val (qMean l) := by
  have hlen : l.length ≠ 0 := fun hc => h (List.length_eq_zero.mp hc)
  rw [pfMean]
  have hf : (l.map PF.val).filter (fun x => !x.isNan) = l.map PF.val := by
    apply List.filter_eq_self.mpr
    intro x hx
    rcases List.mem_map.mp hx with ⟨q, _, rfl⟩
    simp
  rw [hf]
  simp only [List.length_map]
  rw [if_neg hlen]
  rw [foldl_add_map_val, zero_add]
  rw [PF.div_val_val_of_ne _ (by exact_mod_cast hlen)]
  rfl

/-! Rational descriptions of the RSI gain/loss series, and extraction of a
differing adjacent pair from a non-constant window. -/

@[simp] theorem PF.neg_val (q : ℚ) : PF.neg (PF.val q) = PF.val (-q) := rfl

theorem gain_step (p c : ℚ) :
    (if (PF.val 0).blt (PF.val (c - p)) then PF.val (c - p) else PF.val 0) =
      PF.val (if p < c then c - p else 0) := by
  by_cases h : p < c <;> simp [sub_pos, h]

theorem loss_step (p c : ℚ) :
    PF.neg (if (PF.val (c - p)).blt (PF.val 0) then PF.val (c - p) else PF.val 0) =
      PF.val (if c < p then p - c else 0) := by
  by_cases h : c < p
  · have hlt : c - p < 0 := by linarith
    simp [hlt, h]
  · have : ¬ (c - p < 0) := by intro hc; exact h (by linarith)
    simp [this, h]

theorem gainSeries_eq (closes : List ℚ) :
    Technical.gainSeries closes = (gainQ closes).map PF.val := by
  cases closes with
  | nil => rfl
  | cons a t =>
      simp only [Technical.gainSeries, pfDiff, gainQ, List.map_cons,
        List.map_zipWith, List.tail_cons]
      have hf : (fun (x y : ℚ) =>
          if (PF.val 0).blt (PF.val (y - x)) then PF.val (y - x) else PF.val 0) =
          (fun (x y : ℚ) => PF.val (if x < y then y - x else 0)) := by
        funext x y
        exact gain_step x y
      rw [hf]
      rfl


theorem lossSeries_eq (closes : List ℚ) :
    Technical.lossSeries closes = (lossQ closes).map PF.val := by
  cases closes with
  | nil => rfl
  | cons a t =>
      simp only [Technical.lossSeries, pfDiff, lossQ, List.map_cons,
        List.map_zipWith, List.tail_cons]
      have hf : (fun (x y : ℚ) =>
          PF.neg (if (PF.val (y - x)).blt (PF.val 0) then PF.val (y - x) else PF.val 0)) =
          (fun (x y : ℚ) => PF.val (if y < x then x - y else 0)) := by
        funext x y
        exact loss_step x y
      rw [hf]
      simp [PF.blt, PF.neg]

theorem gainQ_length (closes : List ℚ) : (gainQ closes).length = closes.length := by
  cases closes with
  | nil => rfl
  | cons a t => simp [gainQ]

theorem lossQ_length (closes : List ℚ) : (lossQ closes).length = closes.length := by
  cases closes with
  | nil => rfl
  | cons a t => simp [lossQ]

/-- A list whose members are not all equal to its head has a differing
adjacent pair. -/
theorem exists_adjacent_ne {l : List ℚ}
    (h : ¬ ∀ x ∈ l, x = l.headD 0) :
    ∃ i, i + 1 < l.length ∧ l.getD i 0 ≠ l.getD (i + 1) 0 := by
  induction l with
  | nil => exact absurd (by intro x hx; cases hx) h
  | cons a t ih =>
      cases t with
      | nil =>
          refine absurd ?_ h
          intro x hx
          rcases List.mem_cons.mp hx with rfl | hx2
          · rfl
          · cases hx2
      | cons b s =>
          by_cases hab : a = b
          · have h2 : ¬ ∀ x ∈ b :: s, x = (b :: s).headD 0 := by
              intro hall
              exact h (by
                intro x hx
                rcases List.mem_cons.mp hx with rfl | hx2
                · rfl
                · simpa [← hab] using hall x hx2)
            rcases ih h2 with ⟨i, hi, hne⟩
            refine ⟨i + 1, ?_, by simpa using hne⟩
            simp only [List.length_cons] at hi ⊢
            omega
          · exact ⟨0, by simp, by simpa using hab⟩

/-! Characterisation of the negative-index `iloc` lookup. -/

theorem ilocIdx_neg (closes : List ℚ) (k : ℕ) (h1 : 1 ≤ k)
    (h2 : k ≤ closes.length) :
    ilocIdx closes (-(k : Int)) = some (closes.getD (closes.length - k) 0) := by
  rw [ilocIdx]
  have hneg : (-(k : Int) < 0) := by omega
  simp only [hneg, if_true]
  have hcond : (0 : Int) ≤ (closes.length : Int) + -(k : Int) ∧
      (closes.length : Int) + -(k : Int) < (closes.length : Int) := by omega
  rw [dif_pos hcond]
  have hidx : ((closes.length : Int) + -(k : Int)).toNat = closes.length - k := by
    omega
  have hlt : closes.length - k < closes.length := by omega
  simp only [List.get_eq_getElem]
  congr 1
  · rw [List.getD_eq_getElem?_getD, List.getElem?_eq_getElem hlt]
    simp [hidx]

theorem ilocIdx_neg_none {closes : List ℚ} {k : ℕ}
    (h2 : closes.length < k) : ilocIdx closes (-(k : Int)) = none := by
  rw [ilocIdx]
  have hneg : (-(k : Int) < 0) := by omega
  simp only [hneg, if_true]
  have hcond : ¬ ((0 : Int) ≤ (closes.length : Int) + -(k : Int) ∧
      (closes.length : Int) + -(k : Int) < (closes.length : Int)) := by omega
  rw [dif_neg hcond]

/-! Claim C5. -/

/-- C5: for the specific 14-bar close series `[10, 11, ..., 23]` (each close
exactly 1 above the previous), `calculate_rsi` with period 14 returns exactly
100, hence 100 up to the stated tolerance of `1e-6`. -/
theorem C5_rsi_is_100 :
    ∃ q : ℚ, Technical.calculate_rsi closes14 14 = PF.val q ∧
      |q - 100| ≤ 1 / 1000000 :=
  ⟨100, by with_unfolding_all decide, by norm_num⟩

/-! Claim C7. -/

/-- C7 counterexample: the claim says every series with `N ≤ period` fails
with an index error, but at `N = period = 2` the code indexes `iloc[-2]`
into a 2-element series and returns an ordinary value (here 100). -/
theorem C7_counterexample :
    Technical.calculate_roc [1, 2] 2 = some (PF.val 100) := by with_unfolding_all decide

/-- C7 (amended): `calculate_roc` with period `p ≥ 1` raises an index error
exactly when `N < p`.  For every series with `N ≥ p` it returns a value: the
formula `(close_last - close_(N-p)) / close_(N-p) * 100` when the reference
close is nonzero, and when the reference close is zero the IEEE-evaluated
quotient, i.e. `+inf`, `-inf` or NaN according to the sign of the last
close. -/
theorem C7_roc_index_policy (closes : List ℚ) (p : ℕ) (hp : 1 ≤ p) :
    (closes.length < p → Technical.calculate_roc closes p = none) ∧
    (p ≤ closes.length →
      (closes.getD (closes.length - p) 0 ≠ 0 →
        Technical.calculate_roc closes p =
          some (PF.val ((closes.getD (closes.length - 1) 0 -
              closes.getD (closes.length - p) 0) /
            closes.getD (closes.length - p) 0 * 100))) ∧
      (closes.getD (closes.length - p) 0 = 0 →
        Technical.calculate_roc closes p =
          some (if 0 < closes.getD (closes.length - 1) 0 then PF.pinf
                else if closes.getD (closes.length - 1) 0 < 0 then PF.ninf
                else PF.nan))) := by
  constructor
  · intro hlt
    rw [Technical.calculate_roc, ilocIdx_neg_none hlt]
    cases ilocIdx closes (-1) <;> rfl
  · intro hge
    have h1 : 1 ≤ closes.length := le_trans hp hge
    have hlast : ilocIdx closes (-1) =
        some (closes.getD (closes.length - 1) 0) := by
      have := ilocIdx_neg closes 1 le_rfl h1
      simpa using this
    constructor
    · intro hbase
      rw [Technical.calculate_roc, hlast, ilocIdx_neg closes p hp hge]
      dsimp only
      rw [PF.div_val_val_of_ne _ hbase, PF.mul_val_val]
    · intro hbase0
      rw [Technical.calculate_roc, hlast, ilocIdx_neg closes p hp hge]
      dsimp only
      rw [hbase0, sub_zero]
      have h100 : (0 : ℚ) < 100 := by norm_num
      rcases lt_trichotomy (closes.getD (closes.length - 1) 0) 0 with hsgn | hsgn | hsgn
      · have hnp : ¬ (0 < closes.getD (closes.length - 1) 0) := by linarith
        simp only [List.getD_eq_getElem?_getD] at hsgn hnp ⊢
        simp [PF.div, PF.mul, hnp, hsgn, h100]
      · simp only [List.getD_eq_getElem?_getD] at hsgn ⊢
        simp [PF.div, PF.mul, hsgn]
      · simp only [List.getD_eq_getElem?_getD] at hsgn ⊢
        simp [PF.div, PF.mul, hsgn, not_lt.mpr hsgn.le, h100]

/-- C7 witness: the amended theorem applied to the 3-element series
`[1, 2, 4]` with period 2 (`N ≥ p`, nonzero reference close), to the same
series with period 5 (`N < p`, index error), and to the series `[0, 5]` with
period 2 (`N ≥ p`, zero reference close: the IEEE quotient `5/0` scaled by
100 is the positive infinity). -/
theorem C7_witness :
    Technical.calculate_roc [1, 2, 4] 2 = some (PF.val ((4 - 2) / 2 * 100)) ∧
    Technical.calculate_roc [1, 2, 4] 5 = none ∧
    Technical.calculate_roc [0, 5] 2 = some PF.pinf :=
  ⟨((C7_roc_index_policy [1, 2, 4] 2 (by norm_num)).2 (by norm_num)).1
      (by with_unfolding_all decide),
   (C7_roc_index_policy [1, 2, 4] 5 (by norm_num)).1 (by norm_num),
   (((C7_roc_index_policy [0, 5] 2 (by norm_num)).2 (by norm_num)).2
      (by with_unfolding_all decide)).trans (by with_unfolding_all decide)⟩

/-! Claim C4. -/

/-- C4 counterexample: on a series whose total quote volume is zero the claim
demands the positive-infinity sentinel, but `calculate_volume_composition`
returns the ordinary zeros dict. -/
theorem C4_counterexample :
    Quant.calculate_volume_composition barsZeroVol =
      { buy_volume := PF.val 0, sell_volume := PF.val 0 } ∧
    PF.val 0 ≠ PF.pinf :=
  ⟨by with_unfolding_all decide, by with_unfolding_all decide⟩

/-- C4 (amended): on zero total quote volume `calculate_volume_composition`
returns the ordinary zeros (the one deviation from the INF-on-zero-denominator
policy, silently coercing the degenerate case to 0); on nonzero total it
returns the buy and sell fractions. -/
theorem C4_zero_total_policy (bars : List Bar) :
    ((bars.map (fun b => b.volume * b.close)).sum = 0 →
      Quant.calculate_volume_composition bars =
        { buy_volume := PF.val 0, sell_volume := PF.val 0 }) ∧
    ((bars.map (fun b => b.volume * b.close)).sum ≠ 0 →
      Quant.calculate_volume_composition bars =
        { buy_volume := PF.val ((bars.map Bar.takerBuyQuote).sum /
            (bars.map (fun b => b.volume * b.close)).sum),
          sell_volume := PF.val
            (((bars.map (fun b => b.volume * b.close)).sum -
              (bars.map Bar.takerBuyQuote).sum) /
            (bars.map (fun b => b.volume * b.close)).sum) }) := by
  constructor
  · intro h0
    rw [Quant.calculate_volume_composition]
    rw [if_neg (by simp [h0])]
  · intro hne
    rw [Quant.calculate_volume_composition]
    rw [if_pos hne]

/-- C4 witness: the amended theorem applied to the zero-volume single-bar
series and to a series with nonzero total quote volume. -/
theorem C4_witness :
    Quant.calculate_volume_composition barsZeroVol =
      { buy_volume := PF.val 0, sell_volume := PF.val 0 } ∧
    Quant.calculate_volume_composition barsObv =
      { buy_volume := PF.val ((barsObv.map Bar.takerBuyQuote).sum /
          (barsObv.map (fun b => b.volume * b.close)).sum),
        sell_volume := PF.val (((barsObv.map (fun b => b.volume * b.close)).sum -
          (barsObv.map Bar.takerBuyQuote).sum) /
          (barsObv.map (fun b => b.volume * b.close)).sum) } :=
  ⟨(C4_zero_total_policy barsZeroVol).1 (by with_unfolding_all decide),
   (C4_zero_total_policy barsObv).2 (by with_unfolding_all decide)⟩

/-! Claim C3: counterexample. -/

/-- C3 counterexample: on two bars with closes `[1, 2]` and volumes `[5, 7]`
the claim formula (no signed term from bar 0) gives 7, but the code includes
bar 0 with direction -1 (its NaN price difference compares false) and
returns 2. -/
theorem C3_counterexample :
    Technical.calculate_obv barsObv = some 2 ∧ obv_spec barsObv = 7 ∧
    (2 : ℚ) ≠ 7 :=
  ⟨by with_unfolding_all decide, by with_unfolding_all decide, by norm_num⟩

/-! Claim C8: counterexample. -/

/-- C8 counterexample: the claim asserts `calculate_sma_50` returns the
constant `c` for every constant series of any length `N ≥ 1`, but on the
single-bar series `[5]` the 50-bar rolling mean is NaN, not 5. -/
theorem C8_counterexample :
    Technical.calculate_sma_50 [5] = some PF.nan ∧
    (some PF.nan : Option PF) ≠ some (PF.val 5) :=
  ⟨by with_unfolding_all decide, by with_unfolding_all decide⟩

/-! Claim C2. -/

/-- C2 counterexample: for a series of fewer than 20 bars the claim demands
an UNDEFINED sentinel distinguishable from -1, 0 and 1, but the code compares
the last close against NaN rolling extremes (both comparisons false) and
returns the ordinary value 0. -/
theorem C2_counterexample :
    Technical.calculate_channel_breakout (flatBars 5 1 5) = some 0 := by
  with_unfolding_all decide

/-- C2 (amended): for every series with at least 20 bars
`calculate_channel_breakout` returns 1 if the last close exceeds the trailing
20-bar maximum of highs, -1 if it is below the trailing 20-bar minimum of
lows, else 0 (all in {-1, 0, 1}); for a nonempty series of fewer than 20 bars
it returns the ordinary value 0 (the NaN comparisons are false), not a
sentinel distinguishable from the in-channel result. -/
theorem C2_channel_breakout (bars : List Bar) (blast : Bar)
    (hlast : bars.getLast? = some blast) :
    (20 ≤ bars.length →
      Technical.calculate_channel_breakout bars =
        some (if listMax ((bars.map Bar.high).drop (bars.length - 20)) < blast.close
              then 1
              else if blast.close < listMin ((bars.map Bar.low).drop (bars.length - 20))
              then -1 else 0)) ∧
    (bars.length < 20 → Technical.calculate_channel_breakout bars = some 0) := by
  have hne : bars ≠ [] := by rintro rfl; simp at hlast
  have hclose : (bars.map Bar.close).getLast? = some blast.close := by
    rw [List.getLast?_map, hlast]; rfl
  constructor
  · intro h20
    have hh := rollingApply_getLast 20 listMax
      (bars.map Bar.high) (by simpa using h20) (by norm_num)
    have hl := rollingApply_getLast 20 listMin
      (bars.map Bar.low) (by simpa using h20) (by norm_num)
    rw [Technical.calculate_channel_breakout, hh, hl, hclose]
    simp only [List.length_map, PF.blt_val_val, decide_eq_true_eq]
  · intro hlt
    have hmapne : ∀ (g : Bar → ℚ), bars.map g ≠ [] := by
      intro g hmap
      exact hne (by simpa using hmap)
    have hh := rollingApply_getLast_nan 20 listMax
      (bars.map Bar.high) (hmapne Bar.high) (by simpa using hlt)
    have hl := rollingApply_getLast_nan 20 listMin
      (bars.map Bar.low) (hmapne Bar.low) (by simpa using hlt)
    rw [Technical.calculate_channel_breakout, hh, hl, hclose]
    rfl

/-- C2 witness: the amended theorem applied at the 20-bar strictly increasing
series (the 20-bar branch: the last close 20 does not exceed the trailing
maximum of highs, which is 20, so the result is 0) and at a 5-bar flat series
(the short branch). -/
theorem C2_witness :
    Technical.calculate_channel_breakout bars20 =
      some (if listMax ((bars20.map Bar.high).drop (bars20.length - 20)) <
              (Bar.mk 20 20 20 1 0).close then 1
            else if (Bar.mk 20 20 20 1 0).close <
              listMin ((bars20.map Bar.low).drop (bars20.length - 20))
            then -1 else 0) ∧
    Technical.calculate_channel_breakout (flatBars 5 1 5) = some 0 :=
  ⟨(C2_channel_breakout bars20 (Bar.mk 20 20 20 1 0)
      (by with_unfolding_all decide)).1 (by with_unfolding_all decide),
   (C2_channel_breakout (flatBars 5 1 5) (Bar.mk 5 5 5 1 0)
      (by with_unfolding_all decide)).2 (by with_unfolding_all decide)⟩

/-! Claim C3: amended theorem. -/

theorem obv_tail_sum (prev : Bar) (rest : List Bar) :
    (List.zipWith (fun s b => s * b.volume)
      ((List.zipWith (fun p c => PF.val (c - p))
          (prev.close :: rest.map Bar.close) (rest.map Bar.close)).map
        (fun d => if (PF.val 0).blt d then (1 : ℚ) else -1)) rest).sum =
      obvSpecGo prev rest := by
  induction rest generalizing prev with
  | nil => rfl
  | cons b rs ih =>
      simp only [List.map_cons, List.zipWith_cons_cons, List.sum_cons,
        obvSpecGo, ih b]
      congr 1
      by_cases h : prev.close < b.close
      · rw [if_pos (by simpa [sub_pos] using h), if_pos h, one_mul]
      · rw [if_neg (by simpa [sub_pos] using h), if_neg h, neg_one_mul]

/-- C3 (amended): `calculate_obv` returns the cumulative signed-volume sum
over ALL bars, where the bar at index 0 contributes its volume with sign -1
(its NaN price difference compares false under `np.where`), i.e. exactly the
specification's from-index-1 sum minus the first bar's volume. -/
theorem C3_obv_includes_bar0 (b0 : Bar) (rest : List Bar) :
    Technical.calculate_obv (b0 :: rest) =
      some (obv_spec (b0 :: rest) - b0.volume) := by
  simp only [Technical.calculate_obv, List.map_cons, pfDiff, List.tail_cons,
    List.map_cons, List.zipWith_cons_cons]
  have hσ : (if (PF.val 0).blt PF.nan then (1 : ℚ) else -1) = -1 := rfl
  rw [hσ]
  rw [cumsum_getLast (by simp)]
  rw [List.sum_cons, obv_tail_sum b0 rest]
  rw [obv_spec]
  congr 1
  ring

/-- C3 witness: the amended theorem applied to the two-bar series with
closes `[1, 2]` and volumes `[5, 7]`. -/
theorem C3_witness :
    Technical.calculate_obv barsObv =
      some (obv_spec barsObv - (Bar.mk 1 1 1 5 0).volume) :=
  C3_obv_includes_bar0 (Bar.mk 1 1 1 5 0) [Bar.mk 2 2 2 7 0]

/-! More plumbing: constant columns, last elements through `drop`. -/

theorem zipWith_map_self {α β γ : Type} (f : γ → α → β) (g : α → γ) (l : List α) :
    List.zipWith f (l.map g) l = l.map (fun x => f (g x) x) := by
  induction l with
  | nil => rfl
  | cons a t ih => simp [ih]

theorem sum_map_mul (c : ℚ) (f : Bar → ℚ) (l : List Bar) :
    (l.map (fun x => c * f x)).sum = c * (l.map f).sum := by
  induction l with
  | nil => simp
  | cons a t ih => simp [ih]; ring

theorem getLast?_mem {α : Type} {l : List α} {a : α}
    (h : l.getLast? = some a) : a ∈ l := by
  rcases List.getLast?_eq_some_iff.mp h with ⟨ys, rfl⟩
  simp

theorem getLast?_drop_of_lt {α : Type} :
    ∀ (l : List α) (n : ℕ), n < l.length → (l.drop n).getLast? = l.getLast?
  | [], n, h => by simp at h
  | a :: t, 0, _ => by simp
  | a :: t, n + 1, h => by
      have ht : n < t.length := by simpa using h
      have htne : t ≠ [] := by
        intro hc
        rw [hc] at ht
        simp at ht
      rw [List.drop_succ_cons, getLast?_drop_of_lt t n ht]
      cases t with
      | nil => exact absurd rfl htne
      | cons b t2 => rw [List.getLast?_cons_cons]

/-! Claim C8: amended theorem. -/

/-- C8 (amended): for every series of at least 50 bars whose bars are flat at
the constant price `c` (`high = low = close = c`) and whose total volume is
positive, `calculate_vwap` returns exactly `c` and `calculate_sma_50` returns
exactly `c`.  The counterexample forces the length bound (the 50-bar rolling
mean is UNDEFINED below 50 bars, as the spec itself states elsewhere); the
flat-bar and positive-volume conditions are what VWAP's typical price and
volume weighting need. -/
theorem C8_const_aggregates (c : ℚ) (bars : List Bar) (hlen : 50 ≤ bars.length)
    (hflat : ∀ b ∈ bars, b.high = c ∧ b.low = c ∧ b.close = c)
    (hvol : 0 < (bars.map Bar.volume).sum) :
    Technical.calculate_vwap bars = some (PF.val c) ∧
    Technical.calculate_sma_50 (bars.map Bar.close) = some (PF.val c) := by
  have hne : bars ≠ [] := by
    intro hc
    rw [hc] at hlen
    simp at hlen
  have hSvol : (bars.map Bar.volume).sum ≠ 0 := ne_of_gt hvol
  constructor
  · rw [Technical.calculate_vwap]
    have htp : List.zipWith (fun t b => t * b.volume)
        (bars.map (fun b => (b.high + b.low + b.close) / 3)) bars =
        bars.map (fun b => ((b.high + b.low + b.close) / 3) * b.volume) :=
      zipWith_map_self _ _ bars
    have htp2 : bars.map (fun b => ((b.high + b.low + b.close) / 3) * b.volume) =
        bars.map (fun b => c * b.volume) := by
      apply List.map_congr_left
      intro b hb
      rcases hflat b hb with ⟨h1, h2, h3⟩
      rw [h1, h2, h3]
      ring
    rw [htp, htp2]
    have hnum : (cumsum (bars.map (fun b => c * b.volume))).getLast? =
        some ((bars.map (fun b => c * b.volume)).sum) :=
      cumsum_getLast (by simpa using hne)
    have hden : (cumsum (bars.map Bar.volume)).getLast? =
        some ((bars.map Bar.volume)).sum :=
      cumsum_getLast (by simpa using hne)
    rw [getLast?_zipWith_eq (by rw [cumsum_length, cumsum_length]; simp) hnum hden]
    rw [sum_map_mul]
    rw [PF.div_val_val_of_ne _ hSvol]
    rw [mul_div_assoc, div_self hSvol, mul_one]
  · rw [Technical.calculate_sma_50]
    have hlen2 : 50 ≤ (bars.map Bar.close).length := by simpa using hlen
    rw [rollingApply_getLast 50 qMean (bars.map Bar.close) hlen2 (by norm_num)]
    have hdne : (bars.map Bar.close).drop ((bars.map Bar.close).length - 50) ≠ [] := by
      intro hc
      have := congrArg List.length hc
      simp only [List.length_drop, List.length_map, List.length_nil] at this
      omega
    rw [qMean_of_all_eq hdne]
    intro x hx
    have hx2 : x ∈ bars.map Bar.close := List.mem_of_mem_drop hx
    rcases List.mem_map.mp hx2 with ⟨b, hb, rfl⟩
    exact (hflat b hb).2.2

/-- C8 witness: the amended theorem applied to fifty flat bars at price 7
with volume 1. -/
theorem C8_witness :
    Technical.calculate_vwap (flatBars 7 1 50) = some (PF.val 7) ∧
    Technical.calculate_sma_50 ((flatBars 7 1 50).map Bar.close) =
      some (PF.val 7) :=
  C8_const_aggregates 7 (flatBars 7 1 50) (by with_unfolding_all decide)
    (by with_unfolding_all decide) (by with_unfolding_all decide)

/-! Claim C9. -/

theorem ewmFrom_const {a c : ℚ} :
    ∀ (xs : List ℚ), (∀ y ∈ xs, y = c) → ∀ x ∈ Technical.ewmFrom a c xs, x = c
  | [], _, x, hx => by cases hx
  | y :: rest, hall, x, hx => by
      have hy : y = c := hall y (by simp)
      have he : a * y + (1 - a) * c = c := by rw [hy]; ring
      rw [Technical.ewmFrom, he] at hx
      rcases List.mem_cons.mp hx with rfl | hx2
      · rfl
      · exact ewmFrom_const rest (fun z hz => hall z (by simp [hz])) x hx2

/-- C9: for every nonempty series whose closes all equal the constant `c`,
the `ewm(span=20, adjust=False)` recurrence equals `c` at every index (so in
particular after the first bar, with no warm-up gap), and `calculate_ema_20`
returns exactly `c`. -/
theorem C9_ema_const (c : ℚ) (closes : List ℚ) (h0 : closes ≠ [])
    (hconst : ∀ x ∈ closes, x = c) :
    (∀ x ∈ Technical.ewmMean 20 closes, x = c) ∧
    Technical.calculate_ema_20 closes = some c := by
  have hall : ∀ x ∈ Technical.ewmMean 20 closes, x = c := by
    cases closes with
    | nil => exact absurd rfl h0
    | cons a t =>
        intro x hx
        rw [Technical.ewmMean] at hx
        have ha : a = c := hconst a (by simp)
        rcases List.mem_cons.mp hx with rfl | hx2
        · exact ha
        · rw [ha] at hx2
          exact ewmFrom_const t (fun z hz => hconst z (by simp [hz])) x hx2
  refine ⟨hall, ?_⟩
  rw [Technical.calculate_ema_20]
  have hne : Technical.ewmMean 20 closes ≠ [] := by
    cases closes with
    | nil => exact absurd rfl h0
    | cons a t => rw [Technical.ewmMean]; simp
  obtain ⟨y, hy⟩ := Option.isSome_iff_exists.mp (List.getLast?_isSome.mpr hne)
  rw [hy, hall y (getLast?_mem hy)]

/-- C9 witness: the EMA theorem applied to the constant series `[4, 4, 4]`. -/
theorem C9_witness :
    (∀ x ∈ Technical.ewmMean 20 [4, 4, 4], x = (4 : ℚ)) ∧
    Technical.calculate_ema_20 [4, 4, 4] = some 4 :=
  C9_ema_const 4 [4, 4, 4] (by simp) (by
    intro x hx
    simp only [List.mem_cons, List.not_mem_nil, or_false] at hx
    rcases hx with h | h | h <;> exact h)

/-! Claim C10. -/

theorem ilocIdx_neg_one {closes : List ℚ} {p : ℚ}
    (h : closes.getLast? = some p) : ilocIdx closes (-1) = some p := by
  have hne : closes ≠ [] := by rintro rfl; simp at h
  have h1 : 1 ≤ closes.length := List.length_pos.mpr hne
  have := ilocIdx_neg closes 1 le_rfl h1
  rw [List.getLast?_eq_getElem?] at h
  rw [List.getElem?_eq_getElem (by omega)] at h
  rw [List.getD_eq_getElem?_getD, List.getElem?_eq_getElem (by omega)] at this
  simp only [Option.getD_some, Nat.cast_one] at this
  rw [this]
  exact h

/-- C10: for every series whose last close is nonzero, the valuation ratio of
`calculate_price_dcf` with the default parameters (discount 0.15, growth
0.10, 5 years) is the series-independent constant `sum over t = 1..5 of
(1.10/1.15)^t`: the last close cancels out of the discounted sum. -/
theorem C10_dcf_ratio_constant (closes : List ℚ) (p : ℚ)
    (hlast : closes.getLast? = some p) (hp : p ≠ 0) :
    (Quant.calculate_price_dcf closes (3/20) (1/10) 5).map
        Quant.PriceDcf.valuation_ratio =
      some (PF.val ((Finset.Icc 1 5).sum
        (fun t => ((11 : ℚ) / 10 / (23 / 20)) ^ t))) := by
  rw [Quant.calculate_price_dcf, ilocIdx_neg_one hlast]
  have hrange : List.range 5 = [0, 1, 2, 3, 4] := rfl
  have hterm : ∀ t : ℕ,
      PF.div (PF.val (p * (1 + 1/10) ^ (t + 1))) (PF.val ((1 + 3/20) ^ (t + 1))) =
        PF.val (p * (11/10) ^ (t + 1) / ((23/20) ^ (t + 1))) := by
    intro t
    rw [PF.div_val_val_of_ne]
    · norm_num
    · positivity
  rw [hrange]
  simp only [List.map_cons, List.map_nil, hterm, List.foldl_cons, List.foldl_nil,
    PF.add_val_val]
  simp only [Option.map_some', Quant.PriceDcf.valuation_ratio]
  rw [if_pos hp]
  rw [PF.div_val_val_of_ne _ hp]
  congr 1
  have hsum : (Finset.Icc 1 5).sum (fun t => ((11 : ℚ) / 10 / (23 / 20)) ^ t) =
      (11/10 / (23/20)) ^ 1 + (11/10 / (23/20)) ^ 2 + (11/10 / (23/20)) ^ 3 +
      (11/10 / (23/20)) ^ 4 + ((11 : ℚ)/10 / (23/20)) ^ 5 := by
    rw [show (5 : ℕ) = 4 + 1 from rfl, Finset.sum_Icc_succ_top (by omega)]
    rw [show (4 : ℕ) = 3 + 1 from rfl, Finset.sum_Icc_succ_top (by omega)]
    rw [show (3 : ℕ) = 2 + 1 from rfl, Finset.sum_Icc_succ_top (by omega)]
    rw [show (2 : ℕ) = 1 + 1 from rfl, Finset.sum_Icc_succ_top (by omega)]
    rw [Finset.Icc_self, Finset.sum_singleton]
  rw [hsum]
  field_simp
  ring

/-- C10 witness: the theorem applied to the single-bar series `[7]`. -/
theorem C10_witness :
    (Quant.calculate_price_dcf [7] (3/20) (1/10) 5).map
        Quant.PriceDcf.valuation_ratio =
      some (PF.val ((Finset.Icc 1 5).sum
        (fun t => ((11 : ℚ) / 10 / (23 / 20)) ^ t))) :=
  C10_dcf_ratio_constant [7] 7 (by simp) (by norm_num)

/-! Claim C1. -/

theorem nvt_flat (c v supply : ℚ) (n : ℕ) (hn : n ≠ 0) (hc : c ≠ 0)
    (hv : v ≠ 0) :
    Peer.calculate_nvt_ratio (flatBars c v n) supply = PF.val (supply / v) := by
  rw [Peer.calculate_nvt_ratio, flatBars, List.map_replicate]
  have hvc : v * c ≠ 0 := mul_ne_zero hv hc
  simp only
  rw [PF.div_val_val_of_ne _ hvc]
  have hrep : List.replicate n (PF.val (c * supply / (v * c))) =
      (List.replicate n (c * supply / (v * c))).map PF.val := by
    rw [List.map_replicate]
  rw [hrep]
  rw [pfMean_map_val (by simp [hn])]
  rw [qMean_of_all_eq (by simp [hn]) (by
    intro x hx
    exact (List.mem_replicate.mp hx).2)]
  congr 1
  field_simp
  ring

/-- C1 counterexample: on a flat 250-bar series with close 2 and volume 3,
`calculate_nvt_ratio` with the AAVE supply returns the finite mean
`supply / volume = 16000000 / 3`, not the positive-infinity sentinel the
claim demands: its denominator `volume * close` is nowhere zero. -/
theorem C1_counterexample :
    Peer.calculate_nvt_ratio (flatBars 2 3 250) 16000000 =
      PF.val (16000000 / 3) ∧
    PF.val (16000000 / 3) ≠ PF.pinf :=
  ⟨nvt_flat 2 3 16000000 250 (by norm_num) (by norm_num) (by norm_num),
   PF.val_ne_pinf _⟩

theorem sampleVar_replicate_val (n : ℕ) (k : ℚ) (hn : 2 ≤ n) :
    sampleVar (List.replicate n (PF.val k)) = PF.val 0 := by
  rw [sampleVar]
  have hfilter : (List.replicate n (PF.val k)).filter (fun x => !x.isNan) =
      List.replicate n (PF.val k) :=
    List.filter_replicate_of_pos (by simp)
  simp only [hfilter, List.length_replicate]
  rw [if_neg (by omega)]
  have hany : (List.replicate n (PF.val k)).any (fun x => !x.isVal) = false := by
    rw [List.any_eq_false]
    intro x hx
    rw [(List.mem_replicate.mp hx).2]
    simp
  rw [hany]
  simp only [Bool.false_eq_true, if_false]
  have hq : (List.replicate n (PF.val k)).filterMap PF.toQ = List.replicate n k := by
    have hrep : List.replicate n (PF.val k) = (List.replicate n k).map PF.val := by
      rw [List.map_replicate]
    rw [hrep, filterMap_toQ_map_val]
  rw [hq]
  simp only [List.sum_replicate, List.length_replicate, nsmul_eq_mul,
    List.map_replicate]
  have hn0 : (n : ℚ) ≠ 0 := by
    have : (0 : ℕ) < n := by omega
    exact_mod_cast Nat.pos_iff_ne_zero.mp this
  have hk : k - (n : ℚ) * k / n = 0 := by field_simp
  rw [hk]
  norm_num

/-- C1 (amended): on a flat 250-bar series with constant close `c > 0` and
constant volume `v > 0`, `calculate_sharpe_ratio` does return the
positive-infinity sentinel (the excess-return deviation is zero), but
`calculate_nvt_ratio` returns the finite value `supply / v` (its denominator
`volume * close` is nonzero) and `calculate_mayer_multiple` returns exactly 1
(the 200-bar mean equals the price). -/
theorem C1_flat_series (c v supply : ℚ) (hc : 0 < c) (hv : 0 < v) :
    Peer.calculate_nvt_ratio (flatBars c v 250) supply = PF.val (supply / v) ∧
    Peer.calculate_sharpe_ratio (List.replicate 250 c) = PF.pinf ∧
    Peer.calculate_mayer_multiple (List.replicate 250 c) = some (PF.val 1) := by
  have hcne : c ≠ 0 := hc.ne'
  have hvne : v ≠ 0 := hv.ne'
  refine ⟨nvt_flat c v supply 250 (by norm_num) hcne hvne, ?_, ?_⟩
  · rw [Peer.calculate_sharpe_ratio]
    have hrep : List.replicate 250 c = c :: List.replicate 249 c := rfl
    have hpct : pctChange (List.replicate 250 c) =
        PF.nan :: List.replicate 249 (PF.val 0) := by
      rw [hrep, pctChange]
      simp only [List.tail_cons]
      rw [← hrep]
      have : List.zipWith
          (fun prev cur => PF.sub (PF.div (PF.val cur) (PF.val prev)) (PF.val 1))
          (List.replicate 250 c) (List.replicate 249 c) =
          List.replicate 249
            (PF.sub (PF.div (PF.val c) (PF.val c)) (PF.val 1)) := by
        rw [List.zipWith_replicate]
        norm_num
      rw [this, PF.div_val_val_of_ne _ hcne, div_self hcne]
      norm_num
    rw [hpct]
    have hfil : (PF.nan :: List.replicate 249 (PF.val 0)).filter
        (fun x => !x.isNan) = List.replicate 249 (PF.val 0) := by
      rw [List.filter_cons]
      simp only [PF.isNan, Bool.not_true, Bool.false_eq_true, if_false]
      exact List.filter_replicate_of_pos (by simp)
    rw [hfil, List.map_replicate]
    simp only [PF.add_val_val, PF.sub_val_val]
    rw [sampleVar_replicate_val 249 _ (by omega)]
    simp [PF.ne0]
  · rw [Peer.calculate_mayer_multiple]
    have hlast : (List.replicate 250 (c : ℚ)).getLast? = some c := by
      rw [List.getLast?_replicate]
      norm_num
    have hroll := rollingApply_getLast 200 qMean
      (List.replicate 250 c) (by simp) (by norm_num)
    rw [qMean_of_all_eq (by simp) (by
      intro x hx
      exact (List.mem_replicate.mp (List.mem_of_mem_drop hx)).2)] at hroll
    rw [hroll, hlast]
    dsimp only
    rw [if_pos (by simp [hcne])]
    rw [PF.div_val_val_of_ne _ hcne, div_self hcne]

/-- C1 witness: the amended theorem applied at close 1, volume 1, supply 3. -/
theorem C1_witness :
    Peer.calculate_nvt_ratio (flatBars 1 1 250) 3 = PF.val (3 / 1) ∧
    Peer.calculate_sharpe_ratio (List.replicate 250 1) = PF.pinf ∧
    Peer.calculate_mayer_multiple (List.replicate 250 1) = some (PF.val 1) :=
  C1_flat_series 1 1 3 (by norm_num) (by norm_num)

/-! Claim C6: evaluation of the oscillators at the last bar. -/

theorem PF.eq_nan_of_isNan {x : PF} (h : PF.isNan x = true) : x = PF.nan := by
  cases x <;> simp [PF.isNan] at h ⊢

theorem rsi_eval (closes : List ℚ) (hlen : 14 ≤ closes.length) :
    Technical.calculate_rsi closes 14 =
      PF.sub (PF.val 100) (PF.div (PF.val 100) (PF.add (PF.val 1)
        (PF.div (PF.val (qMean ((gainQ closes).drop (closes.length - 14))))
          (PF.val (qMean ((lossQ closes).drop (closes.length - 14))))))) := by
  have hlg : 14 ≤ (gainQ closes).length := by rw [gainQ_length]; exact hlen
  have hll : 14 ≤ (lossQ closes).length := by rw [lossQ_length]; exact hlen
  have hG := rollingApply_getLast 14 qMean (gainQ closes)
    hlg (by norm_num)
  have hL := rollingApply_getLast 14 qMean (lossQ closes)
    hll (by norm_num)
  rw [gainQ_length] at hG
  rw [lossQ_length] at hL
  have hrs : (List.zipWith PF.div (rollingApply 14 qMean (gainQ closes))
      (rollingApply 14 qMean (lossQ closes))).getLast? =
      some (PF.div (PF.val (qMean ((gainQ closes).drop (closes.length - 14))))
        (PF.val (qMean ((lossQ closes).drop (closes.length - 14))))) :=
    getLast?_zipWith_eq (by
      rw [rollingApply_length, rollingApply_length, gainQ_length, lossQ_length])
      hG hL
  have hrsi : ((List.zipWith PF.div (rollingApply 14 qMean (gainQ closes))
      (rollingApply 14 qMean (lossQ closes))).map (fun r =>
        PF.sub (PF.val 100) (PF.div (PF.val 100) (PF.add (PF.val 1) r)))).getLast? =
      some (PF.sub (PF.val 100) (PF.div (PF.val 100) (PF.add (PF.val 1)
        (PF.div (PF.val (qMean ((gainQ closes).drop (closes.length - 14))))
          (PF.val (qMean ((lossQ closes).drop (closes.length - 14)))))))) := by
    rw [List.getLast?_map, hrs]
    rfl
  simp only [Technical.calculate_rsi, gainSeries_eq, lossSeries_eq,
    rollingApplyPF_map_val]
  split
  · next hall =>
      have hmem := getLast?_mem hrsi
      have hnan := PF.eq_nan_of_isNan (List.all_eq_true.mp hall _ hmem)
      rw [← hnan]
  · next hall =>
      rw [List.getLastD_eq_getLast?, hrsi]
      rfl

theorem gainQ_drop (closes : List ℚ) (hlen : 15 ≤ closes.length) :
    (gainQ closes).drop (closes.length - 14) =
      List.zipWith (fun p c => if p < c then c - p else 0)
        (closes.drop (closes.length - 15))
        ((closes.drop (closes.length - 15)).tail) := by
  cases closes with
  | nil => simp at hlen
  | cons a t =>
      rw [gainQ]
      have harith : (a :: t).length - 14 = ((a :: t).length - 15) + 1 := by
        simp only [List.length_cons] at hlen ⊢
        omega
      rw [harith, List.drop_succ_cons]
      rw [zipWith_drop_comm]
      rw [List.tail_drop]
      have harith2 : (a :: t).length - 15 + 1 = (a :: t).length - 14 := by
        simp only [List.length_cons] at hlen ⊢
        omega
      rw [harith2]
      have htail : (a :: t).tail.drop ((a :: t).length - 15) =
          (a :: t).drop ((a :: t).length - 14) := by
        rw [← List.drop_one, List.drop_drop]
        congr 1
        simp only [List.length_cons] at hlen ⊢
        omega
      rw [htail]

theorem lossQ_drop (closes : List ℚ) (hlen : 15 ≤ closes.length) :
    (lossQ closes).drop (closes.length - 14) =
      List.zipWith (fun p c => if c < p then p - c else 0)
        (closes.drop (closes.length - 15))
        ((closes.drop (closes.length - 15)).tail) := by
  cases closes with
  | nil => simp at hlen
  | cons a t =>
      rw [lossQ]
      have harith : (a :: t).length - 14 = ((a :: t).length - 15) + 1 := by
        simp only [List.length_cons] at hlen ⊢
        omega
      rw [harith, List.drop_succ_cons]
      rw [zipWith_drop_comm]
      rw [List.tail_drop]
      have harith2 : (a :: t).length - 15 + 1 = (a :: t).length - 14 := by
        simp only [List.length_cons] at hlen ⊢
        omega
      rw [harith2]
      have htail : (a :: t).tail.drop ((a :: t).length - 15) =
          (a :: t).drop ((a :: t).length - 14) := by
        rw [← List.drop_one, List.drop_drop]
        congr 1
        simp only [List.length_cons] at hlen ⊢
        omega
      rw [htail]

theorem gainQ_nonneg (closes : List ℚ) : ∀ x ∈ gainQ closes, 0 ≤ x := by
  cases closes with
  | nil => intro x hx; cases hx
  | cons a t =>
      intro x hx
      rw [gainQ] at hx
      rcases List.mem_cons.mp hx with rfl | hx2
      · exact le_refl 0
      · refine forall_mem_zipWith ?_ _ _ x hx2
        intro p c
        by_cases h : p < c
        · rw [if_pos h]; linarith
        · rw [if_neg h]

theorem lossQ_nonneg (closes : List ℚ) : ∀ x ∈ lossQ closes, 0 ≤ x := by
  cases closes with
  | nil => intro x hx; cases hx
  | cons a t =>
      intro x hx
      rw [lossQ] at hx
      rcases List.mem_cons.mp hx with rfl | hx2
      · exact le_refl 0
      · refine forall_mem_zipWith ?_ _ _ x hx2
        intro p c
        by_cases h : c < p
        · rw [if_pos h]; linarith
        · rw [if_neg h]

theorem getD_zipWith_q (f : ℚ → ℚ → ℚ) (as bs : List ℚ) (j : ℕ)
    (ha : j < as.length) (hb : j < bs.length) :
    (List.zipWith f as bs).getD j 0 = f (as.getD j 0) (bs.getD j 0) := by
  rw [List.getD_eq_getElem?_getD, List.getElem?_zipWith,
    List.getElem?_eq_getElem ha, List.getElem?_eq_getElem hb,
    List.getD_eq_getElem?_getD as, List.getElem?_eq_getElem ha,
    List.getD_eq_getElem?_getD bs, List.getElem?_eq_getElem hb]
  rfl

theorem getD_tail_q (l : List ℚ) (i : ℕ) :
    l.tail.getD i 0 = l.getD (i + 1) 0 := by
  rw [← List.drop_one, List.getD_eq_getElem?_getD, List.getElem?_drop,
    List.getD_eq_getElem?_getD]
  congr 2
  omega

theorem getD_mem_q (l : List ℚ) (j : ℕ) (h : j < l.length) : l.getD j 0 ∈ l := by
  rw [List.getD_eq_getElem?_getD, List.getElem?_eq_getElem h]
  exact List.getElem_mem h

theorem gain_loss_window_pos (closes : List ℚ) (hlen : 15 ≤ closes.length)
    (hne : ¬ ∀ x ∈ closes.drop (closes.length - 14),
        x = (closes.drop (closes.length - 14)).headD 0) :
    0 < qMean ((gainQ closes).drop (closes.length - 14)) ∨
    0 < qMean ((lossQ closes).drop (closes.length - 14)) := by
  obtain ⟨i, hi, hnei⟩ := exists_adjacent_ne hne
  have hlen_tl : (closes.drop (closes.length - 14)).length = 14 := by
    simp only [List.length_drop]
    omega
  have hi14 : i + 1 < 14 := by rw [hlen_tl] at hi; exact hi
  have htl : closes.drop (closes.length - 14) =
      (closes.drop (closes.length - 15)).tail := by
    rw [List.tail_drop]
    congr 1
    omega
  have hlen_d15 : (closes.drop (closes.length - 15)).length = 15 := by
    simp only [List.length_drop]
    omega
  have hd15p : (closes.drop (closes.length - 15)).getD (i + 1) 0 =
      (closes.drop (closes.length - 14)).getD i 0 := by
    rw [htl, getD_tail_q]
  have hgd : ((gainQ closes).drop (closes.length - 14)).getD (i + 1) 0 =
      (if (closes.drop (closes.length - 14)).getD i 0 <
          (closes.drop (closes.length - 14)).getD (i + 1) 0
       then (closes.drop (closes.length - 14)).getD (i + 1) 0 -
            (closes.drop (closes.length - 14)).getD i 0
       else 0) := by
    rw [gainQ_drop closes hlen, getD_zipWith_q _ _ _ _
      (by omega) (by rw [← htl, hlen_tl]; omega)]
    rw [hd15p, ← htl]
  have hld : ((lossQ closes).drop (closes.length - 14)).getD (i + 1) 0 =
      (if (closes.drop (closes.length - 14)).getD (i + 1) 0 <
          (closes.drop (closes.length - 14)).getD i 0
       then (closes.drop (closes.length - 14)).getD i 0 -
            (closes.drop (closes.length - 14)).getD (i + 1) 0
       else 0) := by
    rw [lossQ_drop closes hlen, getD_zipWith_q _ _ _ _
      (by omega) (by rw [← htl, hlen_tl]; omega)]
    rw [hd15p, ← htl]
  have hglen : ((gainQ closes).drop (closes.length - 14)).length = 14 := by
    simp only [List.length_drop, gainQ_length]
    omega
  have hllen : ((lossQ closes).drop (closes.length - 14)).length = 14 := by
    simp only [List.length_drop, lossQ_length]
    omega
  by_cases hpc : (closes.drop (closes.length - 14)).getD i 0 <
      (closes.drop (closes.length - 14)).getD (i + 1) 0
  · left
    refine qMean_pos (fun x hx => gainQ_nonneg closes x (List.mem_of_mem_drop hx))
      (getD_mem_q _ (i + 1) (by omega)) ?_
    rw [hgd, if_pos hpc]
    linarith
  · have hcp : (closes.drop (closes.length - 14)).getD (i + 1) 0 <
        (closes.drop (closes.length - 14)).getD i 0 :=
      lt_of_le_of_ne (not_lt.mp hpc) (fun h => hnei h.symm)
    right
    refine qMean_pos (fun x hx => lossQ_nonneg closes x (List.mem_of_mem_drop hx))
      (getD_mem_q _ (i + 1) (by omega)) ?_
    rw [hld, if_pos hcp]
    linarith

theorem rsi_inRange (closes : List ℚ) (hlen : 15 ≤ closes.length)
    (hne : ¬ ∀ x ∈ closes.drop (closes.length - 14),
        x = (closes.drop (closes.length - 14)).headD 0) :
    PF.inRange 0 100 (Technical.calculate_rsi closes 14) := by
  have hG0 : 0 ≤ qMean ((gainQ closes).drop (closes.length - 14)) :=
    qMean_nonneg (fun x hx => gainQ_nonneg closes x (List.mem_of_mem_drop hx))
  have hL0 : 0 ≤ qMean ((lossQ closes).drop (closes.length - 14)) :=
    qMean_nonneg (fun x hx => lossQ_nonneg closes x (List.mem_of_mem_drop hx))
  have hpos := gain_loss_window_pos closes hlen hne
  rw [rsi_eval closes (by omega)]
  by_cases hL : qMean ((lossQ closes).drop (closes.length - 14)) = 0
  · have hGpos : 0 < qMean ((gainQ closes).drop (closes.length - 14)) := by
      rcases hpos with h | h
      · exact h
      · rw [hL] at h
        exact absurd h (by norm_num)
    rw [hL, PF.div_val_zero_of_pos hGpos]
    refine ⟨100, ?_, by norm_num, by norm_num⟩
    simp only [PF.add_val_pinf, PF.div_val_pinf, PF.sub_val_val]
    norm_num
  · have hLpos : 0 < qMean ((lossQ closes).drop (closes.length - 14)) :=
      lt_of_le_of_ne hL0 (Ne.symm hL)
    have hdiv0 : 0 ≤ qMean ((gainQ closes).drop (closes.length - 14)) /
        qMean ((lossQ closes).drop (closes.length - 14)) :=
      div_nonneg hG0 hL0
    have h1pos : 0 < 1 + qMean ((gainQ closes).drop (closes.length - 14)) /
        qMean ((lossQ closes).drop (closes.length - 14)) := by linarith
    rw [PF.div_val_val_of_ne _ hL, PF.add_val_val,
      PF.div_val_val_of_ne _ (ne_of_gt h1pos), PF.sub_val_val]
    refine ⟨_, rfl, ?_, ?_⟩
    · have hle : 100 / (1 + qMean ((gainQ closes).drop (closes.length - 14)) /
          qMean ((lossQ closes).drop (closes.length - 14))) ≤ 100 :=
        div_le_self (by norm_num) (by linarith)
      linarith
    · have hgt : 0 < 100 / (1 + qMean ((gainQ closes).drop (closes.length - 14)) /
          qMean ((lossQ closes).drop (closes.length - 14))) := by positivity
      linarith

theorem stoch_eval (bars : List Bar) (blast : Bar)
    (hlast : bars.getLast? = some blast) (hlen : 14 ≤ bars.length) :
    Technical.calculate_stochastic_k bars 14 =
      some (PF.div
        (PF.mul (PF.val 100) (PF.sub (PF.val blast.close)
          (PF.val (listMin ((bars.map Bar.low).drop (bars.length - 14))))))
        (PF.sub (PF.val (listMax ((bars.map Bar.high).drop (bars.length - 14))))
          (PF.val (listMin ((bars.map Bar.low).drop (bars.length - 14)))))) := by
  have hll := rollingApply_getLast 14 listMin
    (bars.map Bar.low) (by simpa using hlen) (by norm_num)
  have hhh := rollingApply_getLast 14 listMax
    (bars.map Bar.high) (by simpa using hlen) (by norm_num)
  rw [List.length_map] at hll hhh
  have hzip := getLast?_zip_eq
    (by rw [rollingApply_length, rollingApply_length, List.length_map,
      List.length_map]) hll hhh
  have hclose : (bars.map Bar.close).getLast? = some blast.close := by
    rw [List.getLast?_map, hlast]
    rfl
  rw [Technical.calculate_stochastic_k]
  rw [getLast?_zipWith_eq (by
    rw [List.length_map, List.length_zip, rollingApply_length,
      rollingApply_length, List.length_map, List.length_map, Nat.min_self])
    hclose hzip]

theorem williams_eval (bars : List Bar) (blast : Bar)
    (hlast : bars.getLast? = some blast) (hlen : 14 ≤ bars.length) :
    Technical.calculate_williams_r bars 14 =
      some (PF.div
        (PF.mul (PF.val (-100))
          (PF.sub (PF.val (listMax ((bars.map Bar.high).drop (bars.length - 14))))
            (PF.val blast.close)))
        (PF.sub (PF.val (listMax ((bars.map Bar.high).drop (bars.length - 14))))
          (PF.val (listMin ((bars.map Bar.low).drop (bars.length - 14)))))) := by
  have hll := rollingApply_getLast 14 listMin
    (bars.map Bar.low) (by simpa using hlen) (by norm_num)
  have hhh := rollingApply_getLast 14 listMax
    (bars.map Bar.high) (by simpa using hlen) (by norm_num)
  rw [List.length_map] at hll hhh
  have hzip := getLast?_zip_eq
    (by rw [rollingApply_length, rollingApply_length, List.length_map,
      List.length_map]) hll hhh
  have hclose : (bars.map Bar.close).getLast? = some blast.close := by
    rw [List.getLast?_map, hlast]
    rfl
  rw [Technical.calculate_williams_r]
  rw [getLast?_zipWith_eq (by
    rw [List.length_map, List.length_zip, rollingApply_length,
      rollingApply_length, List.length_map, List.length_map, Nat.min_self])
    hclose hzip]

theorem window_bounds (bars : List Bar)
    (hinv : ∀ b ∈ bars, b.low ≤ b.close ∧ b.close ≤ b.high)
    {k : ℕ} {b : Bar} (hb : b ∈ bars.drop k) :
    listMin ((bars.map Bar.low).drop k) ≤ b.close ∧
    b.close ≤ listMax ((bars.map Bar.high).drop k) := by
  have h1 : b.low ∈ (bars.map Bar.low).drop k := by
    rw [← List.map_drop]
    exact List.mem_map_of_mem _ hb
  have h2 : b.high ∈ (bars.map Bar.high).drop k := by
    rw [← List.map_drop]
    exact List.mem_map_of_mem _ hb
  have hbinv := hinv b (List.mem_of_mem_drop hb)
  exact ⟨le_trans (listMin_le h1) hbinv.1, le_trans hbinv.2 (le_listMax h2)⟩

/-- C6 (amended): for every series of at least 15 bars whose bars satisfy the
data-model invariant `low ≤ close ≤ high` and whose last 14 closes are not
all equal, `calculate_rsi` and `calculate_stochastic_k` return finite values
in `[0, 100]` and `calculate_williams_r` returns a finite value in
`[-100, 0]`.  (Non-constant closes over the whole series are not enough: if
the last 14 price changes are all zero the RSI is `0/0 = NaN`.) -/
theorem C6_oscillator_ranges (bars : List Bar) (hlen : 15 ≤ bars.length)
    (hinv : ∀ b ∈ bars, b.low ≤ b.close ∧ b.close ≤ b.high)
    (hne : ¬ ∀ x ∈ (bars.map Bar.close).drop (bars.length - 14),
        x = ((bars.map Bar.close).drop (bars.length - 14)).headD 0) :
    PF.inRange 0 100 (Technical.calculate_rsi (bars.map Bar.close) 14) ∧
    (∃ k, Technical.calculate_stochastic_k bars 14 = some k ∧
      PF.inRange 0 100 k) ∧
    (∃ r, Technical.calculate_williams_r bars 14 = some r ∧
      PF.inRange (-100) 0 r) := by
  have hrsi : PF.inRange 0 100 (Technical.calculate_rsi (bars.map Bar.close) 14) := by
    refine rsi_inRange (bars.map Bar.close) (by simpa using hlen) ?_
    simpa using hne
  have hbne : bars ≠ [] := by
    intro h
    rw [h] at hlen
    simp at hlen
  obtain ⟨blast, hlast⟩ : ∃ b, bars.getLast? = some b :=
    Option.isSome_iff_exists.mp (List.getLast?_isSome.mpr hbne)
  have hblast_mem : blast ∈ bars.drop (bars.length - 14) :=
    getLast?_mem (by rw [getLast?_drop_of_lt bars _ (by omega)]; exact hlast)
  have hbb := window_bounds bars hinv hblast_mem
  obtain ⟨i, hi, hnei⟩ := exists_adjacent_ne hne
  have hlen_tl : ((bars.map Bar.close).drop (bars.length - 14)).length = 14 := by
    simp only [List.length_drop, List.length_map]
    omega
  have hi14 : i + 1 < 14 := by rw [hlen_tl] at hi; exact hi
  have hx_mem : ((bars.map Bar.close).drop (bars.length - 14)).getD i 0 ∈
      (bars.map Bar.close).drop (bars.length - 14) :=
    getD_mem_q _ i (by omega)
  have hy_mem : ((bars.map Bar.close).drop (bars.length - 14)).getD (i + 1) 0 ∈
      (bars.map Bar.close).drop (bars.length - 14) :=
    getD_mem_q _ (i + 1) (by omega)
  have htlc : (bars.map Bar.close).drop (bars.length - 14) =
      (bars.drop (bars.length - 14)).map Bar.close := by
    rw [← List.map_drop]
  rw [htlc] at hx_mem hy_mem hnei
  rcases List.mem_map.mp hx_mem with ⟨bx, hbx, hbxe⟩
  rcases List.mem_map.mp hy_mem with ⟨by2, hby, hbye⟩
  have hxb := window_bounds bars hinv hbx
  have hyb := window_bounds bars hinv hby
  rw [hbxe] at hxb
  rw [hbye] at hyb
  have hLoHi : listMin ((bars.map Bar.low).drop (bars.length - 14)) <
      listMax ((bars.map Bar.high).drop (bars.length - 14)) := by
    rcases lt_or_gt_of_ne hnei with h | h
    · linarith [hxb.1, hyb.2]
    · linarith [hyb.1, hxb.2]
  have hd : 0 < listMax ((bars.map Bar.high).drop (bars.length - 14)) -
      listMin ((bars.map Bar.low).drop (bars.length - 14)) := sub_pos.mpr hLoHi
  have hdne : listMax ((bars.map Bar.high).drop (bars.length - 14)) -
      listMin ((bars.map Bar.low).drop (bars.length - 14)) ≠ 0 := ne_of_gt hd
  refine ⟨hrsi, ⟨_, stoch_eval bars blast hlast (by omega), ?_⟩,
    ⟨_, williams_eval bars blast hlast (by omega), ?_⟩⟩
  · simp only [PF.sub_val_val, PF.mul_val_val]
    rw [PF.div_val_val_of_ne _ hdne]
    refine ⟨_, rfl, ?_, ?_⟩
    · apply div_nonneg _ hd.le
      have := hbb.1
      nlinarith
    · rw [div_le_iff₀ hd]
      have := hbb.2
      nlinarith
  · simp only [PF.sub_val_val, PF.mul_val_val]
    rw [PF.div_val_val_of_ne _ hdne]
    refine ⟨_, rfl, ?_, ?_⟩
    · rw [le_div_iff₀ hd]
      have := hbb.1
      nlinarith
    · apply div_nonpos_of_nonpos_of_nonneg _ hd.le
      have := hbb.2
      nlinarith

/-- C6 counterexample: the 16-bar series `bars16` has well-formed bars and
non-constant closes (`1` then fifteen `2`s), yet its last 14 price changes
are all zero, so the RSI's rolling gain and loss means are both 0 and
`rs = 0/0` is NaN: `calculate_rsi` returns NaN, which is not in `[0, 100]`. -/
theorem C6_counterexample :
    (15 : ℕ) ≤ bars16.length ∧
    (∀ b ∈ bars16, b.low ≤ b.close ∧ b.close ≤ b.high) ∧
    (¬ ∀ x ∈ bars16.map Bar.close, x = (bars16.map Bar.close).headD 0) ∧
    Technical.calculate_rsi (bars16.map Bar.close) 14 = PF.nan ∧
    ¬ PF.inRange 0 100 (Technical.calculate_rsi (bars16.map Bar.close) 14) := by
  have hnan : Technical.calculate_rsi (bars16.map Bar.close) 14 = PF.nan := by
    with_unfolding_all decide
  refine ⟨by with_unfolding_all decide, by with_unfolding_all decide,
    by with_unfolding_all decide, hnan, ?_⟩
  rintro ⟨q, hq, -, -⟩
  rw [hnan] at hq
  cases hq

/-- C6 witness: the amended theorem applied to 15 strictly increasing flat
bars. -/
theorem C6_witness :
    PF.inRange 0 100 (Technical.calculate_rsi (bars15.map Bar.close) 14) ∧
    (∃ k, Technical.calculate_stochastic_k bars15 14 = some k ∧
      PF.inRange 0 100 k) ∧
    (∃ r, Technical.calculate_williams_r bars15 14 = some r ∧
      PF.inRange (-100) 0 r) :=
  C6_oscillator_ranges bars15 (by with_unfolding_all decide)
    (by with_unfolding_all decide) (by with_unfolding_all decide)
